import Mathlib

/-!
Verification development for the sparse MRF collaborative-filtering trainer
(`MSD-low-memory.ipynb`).  The computational core of the notebook is embedded
shallowly over exact rationals:

* sparse matrices are coordinate-triple lists (`SpMat`), matching the
  notebook's coordinate-list assembly of `scipy.sparse.csc_matrix`
  (duplicate coordinates sum on interpretation);
* dense matrices and vectors are plain functions into `ℚ`;
* `np.linalg.inv` is embedded as exact Gauss-Jordan elimination, which on an
  invertible rational matrix computes the same (unique) inverse LAPACK
  approximates, and fails (`none`) exactly on singular input;
* the popularity power `np.power(v, alpha/2)` is kept as an explicit function
  parameter `pw : ℚ → ℚ`, since a real exponent does not live in `ℚ`; every
  theorem below either holds for all `pw` or does not depend on it;
* Python exceptions (`ZeroDivisionError`, `NameError`, `LinAlgError`,
  out-of-range `argpartition`, mismatched broadcast shapes) are `Option`
  failures.

Unstable NumPy orderings (`np.argsort` default kind, `bn.argpartition`) are
modelled by the deterministic stable sort; ties are therefore resolved in one
fixed admissible order, as the spec itself demands for reproducibility.
-/

namespace MEMRF

/-- Sparse matrix as a list of (row, column, value) coordinate triples. -/
abbrev SpMat := List (ℕ × ℕ × ℚ)

/-- Interpreted value of a coordinate-triple matrix at `(i, j)`:
`csc_matrix` sums duplicate coordinates. -/
def spVal (A : SpMat) (i j : ℕ) : ℚ :=
  ((A.filter fun t => decide (t.1 = i ∧ t.2.1 = j)).map fun t => t.2.2).sum

/-- The stored coordinates of a sparse matrix, in storage order. -/
def coordsOf (A : SpMat) : List (ℕ × ℕ) := A.map fun t => (t.1, t.2.1)

/-- Whether a coordinate is stored (possibly more than once) in `A`. -/
def hasCoord (A : SpMat) (i j : ℕ) : Prop := (i, j) ∈ coordsOf A

instance (A : SpMat) (i j : ℕ) : Decidable (hasCoord A i j) := by
  unfold hasCoord; infer_instance

/-! ### CovarianceBuilder: `filter_XtX`

`filter_XtX(train_data, block_size, thd4mem, thd4comp)` computes the centered,
popularity-rescaled item-item cross-product in `block_size`-column tiles,
keeps entries with `|value| > thd4mem`, and additionally returns `AtA`, the
retained entries with `|value| >= thd4comp`. -/

/-- Per-item empirical mean: `mu = sum(train_data, axis=0) / userCount`. -/
def muOf (U : ℕ) (X : ℕ → ℕ → ℚ) (i : ℕ) : ℚ :=
  (∑ u ∈ Finset.range U, X u i) / (U : ℚ)

/-- `variance_times_userCount = (mu - mu * mu) * userCount`. -/
def varTimesU (U : ℕ) (X : ℕ → ℕ → ℚ) (i : ℕ) : ℚ :=
  (muOf U X i - muOf U X i * muOf U X i) * (U : ℚ)

/-- `rescaling = np.power(variance_times_userCount, alpha / 2.0)`; the real
power is the abstract parameter `pw`. -/
def rescalingOf (U : ℕ) (X : ℕ → ℕ → ℚ) (pw : ℚ → ℚ) (i : ℕ) : ℚ :=
  pw (varTimesU U X i)

/-- `scaling = 1.0 / rescaling`. -/
def scalingFn (U : ℕ) (X : ℕ → ℕ → ℚ) (pw : ℚ → ℚ) (i : ℕ) : ℚ :=
  1 / rescalingOf U X pw i

/-- Entry `(a, b)` of the dense centered rescaled cross-product computed
inside a tile: `scaling[a] * (X^T X [a,b] - mu[a] * (mu[b] * userCount)) *
scaling[b]`. -/
def gram (U : ℕ) (X : ℕ → ℕ → ℚ) (pw : ℚ → ℚ) (a b : ℕ) : ℚ :=
  scalingFn U X pw a *
    ((∑ u ∈ Finset.range U, X u a * X u b) - muOf U X a * (muOf U X b * (U : ℚ))) *
    scalingFn U X pw b

/-- Global column indices of tile block `ii`: the slice
`bs*ii : bs*(ii+1)` of `range n`. -/
def tileCols (n : ℕ) (bs : ℤ) (ii : ℕ) : List ℕ :=
  (List.range n).filter fun k => decide (bs * ii ≤ (k : ℤ) ∧ (k : ℤ) < bs * (ii + 1))

/-- The coordinate triples the tile `(ii, jj)` contributes after the
`|value| > thd4mem` memory filter. -/
def tileTriples (U n : ℕ) (X : ℕ → ℕ → ℚ) (pw : ℚ → ℚ) (bs : ℤ) (tm : ℚ)
    (ii jj : ℕ) : SpMat :=
  (tileCols n bs ii).flatMap fun a =>
    ((tileCols n bs jj).filter fun b => decide (tm < |gram U X pw a b|)).map
      fun b => (a, b, gram U X pw a b)

/-- Result record of `filter_XtX`: `return XtX, rescaling, XtX.diagonal(), AA`. -/
structure FilterOut where
  XtX : SpMat
  rescaling : ℕ → ℚ
  XtXdiag : ℕ → ℚ
  AtA : SpMat

/-- `filter_XtX`.  `blocks = shape[1] // bs + 1` (Python floor division:
`bs = 0` raises `ZeroDivisionError`; a negative `bs` with at least one item
leaves the accumulators unassigned, raising `NameError`, both modelled as
`none`).  Tiles accumulate the entries with `|value| > thd4mem`; `AtA` keeps
the accumulated entries with `|value| >= thd4comp`. -/
def filter_XtX (U n : ℕ) (X : ℕ → ℕ → ℚ) (bs : ℤ) (tm tc : ℚ)
    (pw : ℚ → ℚ) : Option FilterOut :=
  if bs = 0 then none
  else
    let blocks : ℤ := Int.fdiv (n : ℤ) bs + 1
    if blocks ≤ 0 then none
    else
      let XtXl : SpMat :=
        (List.range blocks.toNat).flatMap fun ii =>
          (List.range blocks.toNat).flatMap fun jj =>
            tileTriples U n X pw bs tm ii jj
      let AtAl : SpMat := XtXl.filter fun t => decide (tc ≤ |t.2.2|)
      some ⟨XtXl, rescalingOf U X pw, fun i => spVal XtXl i i, AtAl⟩

/-- Modelled from the spec (testable property for the refinement claim):
the naive unblocked dense computation — "the cross-product X^T X centered by
subtracting the outer product of per-item means scaled by the user count,
with rows and columns scaled by the inverse popularity rescaling factors". -/
def naive_dense_XtX (U : ℕ) (X : ℕ → ℕ → ℚ) (pw : ℚ → ℚ) (i j : ℕ) : ℚ :=
  (1 / rescalingOf U X pw i) *
    ((∑ u ∈ Finset.range U, X u i * X u j) - muOf U X i * muOf U X j * (U : ℚ)) *
    (1 / rescalingOf U X pw j)

/-! ### SparsityPatternSelector: `calculate_sparsity_pattern`

Works in place on the csc structure, so it is embedded on `SpMat` triples:
`countInColumns = AA.getnnz(axis=0)` counts stored entries; for each column
with more than `maxInColumn` stored entries, the rows of its nonzero entries
are ranked by magnitude (`bn.argpartition(-|values|, maxInColumn)`), all but
the `maxInColumn` largest are assigned `0.0`, and `eliminate_zeros()` finally
drops every stored zero.  `argpartition` raises when `maxInColumn` is not
below the number of nonzero entries of a selected column (`none`). -/

/-- Stored entries of column `j`, in storage order. -/
def colEntries (A : SpMat) (j : ℕ) : SpMat :=
  A.filter fun t => decide (t.2.1 = j)

/-- `getnnz(axis=0)` for column `j`: number of stored entries. -/
def colStored (A : SpMat) (j : ℕ) : ℕ := (colEntries A j).length

/-- The nonzero stored entries of column `j` (what `AA[:,ii].nonzero()` and
the subsequent magnitude ranking see). -/
def nzEntries (A : SpMat) (j : ℕ) : SpMat :=
  (colEntries A j).filter fun t => decide (t.2.2 ≠ 0)

/-- Column `j`'s nonzero entries sorted by descending magnitude
(`argpartition` separates the `K` largest; the deterministic stable sort is
one admissible tie resolution). -/
def colSortedDesc (A : SpMat) (j : ℕ) : SpMat :=
  ((nzEntries A j).insertionSort fun s t => |s.2.2| ≤ |t.2.2|).reverse

/-- Rows whose entries the cap drops from an over-budget column `j`
(`jj[kk]` in the source). -/
def droppedRows (A : SpMat) (j : ℕ) (K : ℕ) : List ℕ :=
  ((colSortedDesc A j).drop K).map fun t => t.1

/-- `calculate_sparsity_pattern(AtA, maxInColumn)`. -/
def calculate_sparsity_pattern (A : SpMat) (n : ℕ) (K : ℕ) : Option SpMat :=
  let iiList := (List.range n).filter fun j => decide (K < colStored A j)
  if ∀ j ∈ iiList, K < (nzEntries A j).length then
    some (A.filter fun t =>
      decide (t.2.2 ≠ 0 ∧ ¬(t.2.1 ∈ iiList ∧ t.1 ∈ droppedRows A t.2.1 K)))
  else none

/-! ### NeighborhoodPartitioner (steps 1, 2, 4 of `sparse_parameter_estimation`)

The partitioner reads the mask `AA` through `sparse.find` /
`getnnz`, i.e. through its nonzero values, so `AA` enters as a function
(the pipeline hands it over with `eliminate_zeros()` already applied). -/

/-- Rows of the nonzero entries of column `j`, ascending — the order
`sparse.find(AA[:,ii])` produces on a canonical csc column. -/
def colNZRows (AA : ℕ → ℕ → ℚ) (n j : ℕ) : List ℕ :=
  (List.range n).filter fun i => decide (AA i j ≠ 0)

/-- `AAcountInColumns = AA.getnnz(axis=0)`. -/
def AAcnt (AA : ℕ → ℕ → ℚ) (n j : ℕ) : ℕ := (colNZRows AA n j).length

/-- `np.max(XtXdiag)` over the `n` items. -/
def maxDiag (diag : ℕ → ℚ) (n : ℕ) : ℚ :=
  (((List.range n).map diag).max?).getD 0

/-- Priority of item `j`: `AAcountInColumns + XtXdiag / 2.0 / np.max(XtXdiag)`. -/
def priorityOf (AA : ℕ → ℕ → ℚ) (diag : ℕ → ℚ) (n j : ℕ) : ℚ :=
  (AAcnt AA n j : ℚ) + diag j / 2 / maxDiag diag n

/-- `sortedList = np.argsort(priority)[::-1]`: item indices by descending
priority (stable sort ascending, then reversed). -/
def sortedListOf (AA : ℕ → ℕ → ℚ) (diag : ℕ → ℚ) (n : ℕ) : List ℕ :=
  ((List.range n).insertionSort fun a b =>
    priorityOf AA diag n a ≤ priorityOf AA diag n b).reverse

/-- Step 1: `nn, _, vals = sparse.find(AA[:,ii]); kk = argsort(|vals|)[::-1];
nn = nn[kk]`: the neighbor set of `ii`, sorted by descending magnitude. -/
def nbrsSorted (AA : ℕ → ℕ → ℚ) (n ii : ℕ) : List ℕ :=
  ((colNZRows AA n ii).insertionSort fun a b => |AA a ii| ≤ |AA b ii|).reverse

/-- `dd_count = max(1, int(np.ceil(len(nn) * rr)))`. -/
def dd_count (m : ℕ) (rr : ℚ) : ℕ := (max 1 ⌈(m : ℚ) * rr⌉).toNat

/-- Steps 1, 2, 4: walk the priority list; for each still-flagged item emit
its sorted neighbor set as a block and clear the flag on the first
`dd_count` members (set `D`). -/
def partitionLoop (rr : ℚ) (AA : ℕ → ℕ → ℚ) (n : ℕ) :
    List ℕ → (ℕ → Bool) → List (List ℕ)
  | [], _ => []
  | ii :: rest, todo =>
    if todo ii then
      let nn := nbrsSorted AA n ii
      let dd := nn.take (dd_count nn.length rr)
      nn :: partitionLoop rr AA n rest fun j => if j ∈ dd then false else todo j
    else partitionLoop rr AA n rest todo

/-- `blockList` produced by steps 1, 2, 4. -/
def blockListOf (rr : ℚ) (AA : ℕ → ℕ → ℚ) (diag : ℕ → ℚ) (n : ℕ) :
    List (List ℕ) :=
  partitionLoop rr AA n (sortedListOf AA diag n) fun _ => true

/-- The retired set `D` of each emitted block: its first
`max(1, ceil(r * |N|))` members. -/
def retiredSetsOf (rr : ℚ) (AA : ℕ → ℕ → ℚ) (diag : ℕ → ℚ) (n : ℕ) :
    List (List ℕ) :=
  (blockListOf rr AA diag n).map fun nn => nn.take (dd_count nn.length rr)

/-! ### BlockSolver (step 3 of `sparse_parameter_estimation`)

`np.linalg.inv` is embedded as exact Gauss-Jordan elimination on rational
row lists.  On an invertible matrix it returns the unique inverse (the same
matrix LAPACK's LU factorization approximates in floats); on a singular one
it returns `none`, mirroring `LinAlgError`. -/

/-- Entry `k` of a row, `0` past the end. -/
def rowEntry (r : List ℚ) (k : ℕ) : ℚ := r.getD k 0

/-- Subtract `c` times row `s` from row `r`. -/
def rowElim (c : ℚ) (s r : List ℚ) : List ℚ :=
  List.zipWith (fun x y => x - c * y) r s

/-- One Gauss-Jordan pivot step on column `k`: find a row at or below `k`
with a nonzero entry in column `k`, swap it up, divide it by the pivot and
eliminate column `k` from every other row; `none` if no pivot exists. -/
def pivotStep (k : ℕ) (rows : List (List ℚ)) : Option (List (List ℚ)) :=
  match (rows.drop k).findIdx? (fun r => decide (rowEntry r k ≠ 0)) with
  | none => none
  | some off =>
    let i := k + off
    let swapped := rows.mapIdx fun t r =>
      if t = k then rows.getD i [] else if t = i then rows.getD k [] else r
    let piv := swapped.getD k []
    let scaled := piv.map fun x => x / rowEntry piv k
    some (swapped.mapIdx fun t r =>
      if t = k then scaled else rowElim (rowEntry r k) scaled r)

/-- Gauss-Jordan elimination over the first `m` columns. -/
def gaussJordan (m : ℕ) (rows : List (List ℚ)) : Option (List (List ℚ)) :=
  (List.range m).foldlM (fun acc k => pivotStep k acc) rows

/-- The augmented system `[M | I]`. -/
def augmented (m : ℕ) (M : List (List ℚ)) : List (List ℚ) :=
  M.mapIdx fun i r => r ++ (List.range m).map fun j => if j = i then (1 : ℚ) else 0

/-- `np.linalg.inv` for an `m × m` rational matrix given as row lists. -/
def matInvGJ (m : ℕ) (M : List (List ℚ)) : Option (List (List ℚ)) :=
  (gaussJordan m (augmented m M)).map fun rows => rows.map (List.drop m)

/-- Entry access in an inverse given as row lists. -/
def invEntry (B : List (List ℚ)) (p q : ℕ) : ℚ := (B.getD p []).getD q 0

/-- `XtX[np.ix_(nn, nn)]` as row lists. -/
def subMat (XtX : ℕ → ℕ → ℚ) (nn : List ℕ) : List (List ℚ) :=
  nn.map fun a => nn.map fun b => XtX a b

/-- One block of step 3: invert the block submatrix, apply
`BBblock /= -np.diag(BBblock)` (NumPy broadcasting divides entry `(p, q)` by
`-diag[q]`), and emit the `(nn[p], dd[q], value)` triples of the columns of
the retired set `dd = nn[:dd_count]` (`np.meshgrid(dd, nn)` with
`BBblock[:, :dd_count]`, flattened row-major). -/
def solveBlock (XtX : ℕ → ℕ → ℚ) (rr : ℚ) (nn : List ℕ) :
    Option (List (ℕ × ℕ × ℚ)) :=
  let m := nn.length
  match matInvGJ m (subMat XtX nn) with
  | none => none
  | some B =>
    some ((List.range m).flatMap fun p =>
      ((List.range m).take (dd_count m rr)).map fun q =>
        (nn.getD p 0, nn.getD q 0, invEntry B p q / (-(invEntry B q q))))

/-- Step 3 over the whole block list, extending the global triple lists
block by block. -/
def solveAll (XtX : ℕ → ℕ → ℚ) (rr : ℚ) (bl : List (List ℕ)) :
    Option (List (ℕ × ℕ × ℚ)) :=
  (bl.mapM (solveBlock XtX rr)).map List.flatten

/-! ### SolutionAggregator (final steps of `sparse_parameter_estimation`)

`BBsum` and `BBcnt` are csc matrices built from the same coordinate lists, so
their stored coordinates agree; `sparse.find(BBsum)` drops entries whose
contributions sum to exactly zero while `sparse.find(BBcnt)` drops nothing.
If some sums vanish and more than one distinct coordinate exists, the
element-wise division `b_3[2] / b_div` raises a broadcast `ValueError`
(`none`); with exactly one distinct coordinate the quotient of an empty array
by a length-1 array broadcasts to the empty array, yielding the zero
matrix — which the value-level embedding already equals. -/

/-- All contributions of the blocks to coordinate `(i, j)`. -/
def contribsAt (l : SpMat) (i j : ℕ) : List ℚ :=
  (l.filter fun t => decide (t.1 = i ∧ t.2.1 = j)).map fun t => t.2.2

/-- Sum of the contributions at `(i, j)` (entry of `BBsum`). -/
def sumAt (l : SpMat) (i j : ℕ) : ℚ := (contribsAt l i j).sum

/-- Number of contributions at `(i, j)` (entry of `BBcnt`). -/
def cntAt (l : SpMat) (i j : ℕ) : ℕ := (contribsAt l i j).length

/-- `BBavg`: per-coordinate average of the block contributions. -/
def aggregate (l : SpMat) : Option (ℕ → ℕ → ℚ) :=
  if (∀ t ∈ l, sumAt l t.1 t.2.1 ≠ 0) ∨ (coordsOf l).dedup.length = 1 then
    some fun i j => sumAt l i j / (cntAt l i j : ℚ)
  else none

/-- `sparse_parameter_estimation(rr, XtX, AA, XtXdiag)`: partition (steps
1, 2, 4), solve every block (step 3), average the contributions, force the
diagonal to zero (`BBavg[ii_diag] = 0.0`) and restrict to `AA`'s support
(`BBavg[AA.nonzero()]` re-assembled on `AA.nonzero()`). -/
def sparse_parameter_estimation (rr : ℚ) (XtX AA : ℕ → ℕ → ℚ)
    (XtXdiag : ℕ → ℚ) (n : ℕ) : Option (ℕ → ℕ → ℚ) :=
  match solveAll XtX rr (blockListOf rr AA XtXdiag n) with
  | none => none
  | some ts =>
    match aggregate ts with
    | none => none
    | some BBavg =>
      some fun i j => if AA i j ≠ 0 then (if i = j then 0 else BBavg i j) else 0

/-! ### Orchestrator: `sparse_solution` and the rescaling cell

The notebook keeps `XtX`, `AtA`, `XtXdiag` as module-level globals which
`sparse_solution` reads and mutates (`XtX[ii_diag] = ...`;
`calculate_sparsity_pattern` writes through its alias `AA = AtA`).  The
globals are embedded as an explicit state record threaded through. -/

/-- The module-level globals `sparse_solution` touches. -/
structure GlobalState where
  n : ℕ
  XtX : ℕ → ℕ → ℚ
  AtA : SpMat
  XtXdiag : ℕ → ℚ

/-- `sparse_solution(rr, maxInColumn, L2reg)`: set `XtX[ii_diag] = XtXdiag`,
compute the sparsity pattern in place on `AtA`, set
`XtX[ii_diag] = XtXdiag + L2reg`, and run the parameter estimation.  Returns
the final global state together with `BBsparse`. -/
def sparse_solution (rr : ℚ) (maxInColumn : ℕ) (L2reg : ℚ)
    (s : GlobalState) : Option (GlobalState × (ℕ → ℕ → ℚ)) :=
  let XtX1 := fun i j => if i = j then s.XtXdiag i else s.XtX i j
  match calculate_sparsity_pattern s.AtA s.n maxInColumn with
  | none => none
  | some AAs =>
    let AA := fun i j => spVal AAs i j
    let XtX2 := fun i j => if i = j then s.XtXdiag i + L2reg else XtX1 i j
    match sparse_parameter_estimation rr XtX2 AA
        (fun i => s.XtXdiag i + L2reg) s.n with
    | none => none
    | some BB => some ({ s with XtX := XtX2, AtA := AAs }, BB)

/-- The cell-level `scaling = 1 / rescaling`. -/
def scalingVec (resc : ℕ → ℚ) : ℕ → ℚ := fun i => 1 / resc i

/-- The final popularity rescaling
`BBsparse = sparse.diags(scaling).dot(BBsparse).dot(sparse.diags(rescaling))`. -/
def rescaleBB (scal resc : ℕ → ℚ) (BB : ℕ → ℕ → ℚ) : ℕ → ℕ → ℚ :=
  fun i j => scal i * BB i j * resc j

/-! ### Concrete inputs used by counterexamples and witnesses -/

/-- A 4-item sparsity mask (as the nonzero-value function of an eliminated
csc matrix).  Column 0 holds rows 0 and 2; column 1 holds rows 1 and 2;
column 3 holds row 3; column 2 is empty.  Magnitudes are arranged so that
row 2 heads the sorted neighbor lists of both column 0 and column 1. -/
def AAc1 : ℕ → ℕ → ℚ := fun i j =>
  if i = 0 ∧ j = 0 then 3 else if i = 2 ∧ j = 0 then 4
  else if i = 1 ∧ j = 1 then 1 else if i = 2 ∧ j = 1 then 5
  else if i = 3 ∧ j = 3 then 1 else 0

/-- Item popularities (`XtXdiag`) giving the four items of `AAc1` the
pairwise-distinct priorities 2.5, 2.25, 0.125, 1.125. -/
def diagc1 : ℕ → ℚ := fun i => if i = 0 then 8 else if i = 1 then 4 else 2

/-- A symmetric 2-by-2 covariance: `[[2, 1], [1, 3]]` (and `1` beyond). -/
def XtXc2 : ℕ → ℕ → ℚ := fun i j =>
  if i = 0 ∧ j = 0 then 2 else if i = 1 ∧ j = 1 then 3 else 1

/-- A 2-user, 1-item interaction matrix: user 0 interacted, user 1 did not.
Its single centered rescaled cross-product entry (with the identity power)
is `2`. -/
def X21 : ℕ → ℕ → ℚ := fun u _ => if u = 0 then 1 else 0

/-- A 1-item global state for whole-pipeline runs. -/
def st0 : GlobalState :=
  { n := 1, XtX := XtXc2, AtA := [(0, 0, (1 : ℚ))], XtXdiag := fun _ => 2 }

/-- A 2-item triple matrix whose column 0 is over a budget of 1. -/
def A4c : SpMat := [(0, 0, 1), (1, 0, 2), (0, 1, 3)]

/-- Two block contributions to the same coordinate `(0, 1)`. -/
def l6 : SpMat := [(0, 1, 3), (0, 1, 5)]

/-- The same contributions appended in the opposite order. -/
def l6r : SpMat := [(0, 1, 5), (0, 1, 3)]

/-- A 1-item sparsity mask holding the single entry `(0, 0)`. -/
def AA1 : ℕ → ℕ → ℚ := fun i j => if i = 0 ∧ j = 0 then 1 else 0

/-- A 1-item diagonal for the witness runs. -/
def diag1 : ℕ → ℚ := fun _ => 3

/-- Observation used by the aggregation witness: the averaged value at the
contributed coordinate `(0, 1)`. -/
def obsC6 (BB : ℕ → ℕ → ℚ) : ℚ := BB 0 1

/-- Observation used by the weight-matrix witness: the rescaled output at
the diagonal coordinate `(0, 0)` with unit rescaling factors. -/
def obsC3 (BB : ℕ → ℕ → ℚ) : ℚ :=
  rescaleBB (scalingVec fun _ => 1) (fun _ => 1) BB 0 0

/-- Observation used by the refinement witness: the assembled `XtX` value at
`(0, 0)`. -/
def obsC5 (r : FilterOut) : ℚ := spVal r.XtX 0 0

/-- Observation used by the threshold witness: whether `(0, 0)` is stored in
the assembled `XtX`. -/
def obsC8 (r : FilterOut) : Bool := decide (hasCoord r.XtX 0 0)

/-- Observation used by the frame-effect witnesses: the final `AtA` global
and the final regularized `XtX` diagonal entry. -/
def obsC9 (p : GlobalState × (ℕ → ℕ → ℚ)) : SpMat := p.1.AtA

/-- Observation of the final `XtX 0 0` after `sparse_solution`. -/
def obsC10 (p : GlobalState × (ℕ → ℕ → ℚ)) : ℚ := p.1.XtX 0 0

/-! ## Theorems -/

/-- Loop invariant of steps 1, 2, 4: any item that is still flagged on entry
and occurs in the remaining worklist ends up either retired by some emitted
block or anchoring its own emitted block. -/
theorem partitionLoop_covers (rr : ℚ) (AA : ℕ → ℕ → ℚ) (n : ℕ) :
    ∀ (order : List ℕ) (todo : ℕ → Bool) (i : ℕ), i ∈ order → todo i = true →
      (∃ d ∈ (partitionLoop rr AA n order todo).map
          (fun nn => nn.take (dd_count nn.length rr)), i ∈ d) ∨
      nbrsSorted AA n i ∈ partitionLoop rr AA n order todo := by
  intro order
  induction order with
  | nil => intro todo i h; cases h
  | cons ii rest IH =>
    intro todo i hmem htodo
    by_cases hii : todo ii = true
    · rw [partitionLoop, if_pos hii]
      by_cases hid :
          i ∈ (nbrsSorted AA n ii).take (dd_count (nbrsSorted AA n ii).length rr)
      · exact Or.inl ⟨_, List.mem_map_of_mem _ (List.mem_cons_self _ _), hid⟩
      · rcases List.mem_cons.mp hmem with hi | hi
        · exact Or.inr (hi ▸ List.mem_cons_self _ _)
        · have htodo' :
              (fun j => if j ∈ (nbrsSorted AA n ii).take
                  (dd_count (nbrsSorted AA n ii).length rr) then false else todo j) i
                = true := by
            simpa [hid] using htodo
          rcases IH (fun j => if j ∈ (nbrsSorted AA n ii).take
              (dd_count (nbrsSorted AA n ii).length rr) then false else todo j)
              i hi htodo' with ⟨d, hd, hdi⟩ | hblk
          · exact Or.inl ⟨d, List.mem_cons_of_mem _ hd, hdi⟩
          · exact Or.inr (List.mem_cons_of_mem _ hblk)
    · have hne : i ≠ ii := by
        intro he; rw [he] at htodo; exact hii htodo
      have hi : i ∈ rest := by
        rcases List.mem_cons.mp hmem with h | h
        · exact absurd h hne
        · exact h
      rw [partitionLoop, if_neg hii]
      exact IH todo i hi htodo

/-- C1 (counterexample).  On the 4-item mask `AAc1` with `r = 1/2`, the
emitted retired sets are `[[2], [2], [3]]`: item 2 is retired by two
distinct blocks and items 0 and 1 are retired by none, so the retired sets
do not partition the item index set. -/
theorem C1_counterexample :
    retiredSetsOf (1/2) AAc1 diagc1 4 = [[2], [2], [3]] ∧
    (retiredSetsOf (1/2) AAc1 diagc1 4).countP (fun d => decide ((0 : ℕ) ∈ d)) = 0 ∧
    (retiredSetsOf (1/2) AAc1 diagc1 4).countP (fun d => decide ((2 : ℕ) ∈ d)) = 2 :=
  of_decide_eq_true (by with_unfolding_all rfl)

/-- C1 (amended).  Every item index is either retired by at least one
emitted block or anchors an emitted block of its own (the block holding its
sorted `AA`-column neighborhood); retired sets may overlap and need not
cover every item. -/
theorem C1_amended_cover (rr : ℚ) (AA : ℕ → ℕ → ℚ) (diag : ℕ → ℚ) (n i : ℕ)
    (hi : i < n) :
    (∃ d ∈ retiredSetsOf rr AA diag n, i ∈ d) ∨
    nbrsSorted AA n i ∈ blockListOf rr AA diag n := by
  apply partitionLoop_covers
  · unfold sortedListOf
    rw [List.mem_reverse, (List.perm_insertionSort _ _).mem_iff]
    exact List.mem_range.mpr hi
  · rfl

/-- C1 (witness).  Item 0 of the counterexample input is covered in the
anchoring sense: its sorted neighborhood `[2, 0]` is an emitted block. -/
theorem C1_amended_cover_witness :
    (∃ d ∈ retiredSetsOf (1/2) AAc1 diagc1 4, 0 ∈ d) ∨
    nbrsSorted AAc1 4 0 ∈ blockListOf (1/2) AAc1 diagc1 4 :=
  C1_amended_cover (1/2) AAc1 diagc1 4 0 (by norm_num)

/-- C2 (counterexample).  For the block `[0, 1]` of the symmetric matrix
`[[2, 1], [1, 3]]`, the inverse is `[[3/5, -1/5], [-1/5, 2/5]]` and the
solver emits coefficient `1/2` for neighbor 0 predicting member 1 — the
value `-inv[0,1] / inv[1,1]` produced by NumPy's column-wise broadcast of
`BBblock /= -np.diag(BBblock)` — whereas the claim's formula
`-inv[0,1] / inv[0,0]` equals `1/3`. -/
theorem C2_counterexample :
    matInvGJ 2 (subMat XtXc2 [0, 1]) = some [[3/5, -1/5], [-1/5, 2/5]] ∧
    solveBlock XtXc2 1 [0, 1] =
      some [(0, 0, -1), (0, 1, 1/2), (1, 0, 1/3), (1, 1, -1)] ∧
    ¬((1 : ℚ)/2 = -(invEntry [[3/5, -1/5], [-1/5, 2/5]] 0 1 /
        invEntry [[3/5, -1/5], [-1/5, 2/5]] 0 0)) :=
  of_decide_eq_true (by with_unfolding_all rfl)

/-- C2 (amended).  After inverting a block's submatrix, each column of the
inverse is divided by the negated value of that column's own diagonal
entry, so the emitted coefficient of neighbor `a = nn[p]` predicting member
`j = nn[q]` equals `-inverse[p,q] / inverse[q,q]`. -/
theorem C2_amended_column_normalization (XtX : ℕ → ℕ → ℚ) (rr : ℚ)
    (nn : List ℕ) (ts : List (ℕ × ℕ × ℚ)) (B : List (List ℚ)) (p q : ℕ)
    (hts : solveBlock XtX rr nn = some ts)
    (hB : matInvGJ nn.length (subMat XtX nn) = some B)
    (hp : p < nn.length) (hq : q < dd_count nn.length rr) (hq' : q < nn.length) :
    (nn.getD p 0, nn.getD q 0, -(invEntry B p q / invEntry B q q)) ∈ ts := by
  unfold solveBlock at hts
  simp only [hB, Option.some.injEq] at hts
  subst hts
  refine List.mem_flatMap.mpr ⟨p, List.mem_range.mpr hp, ?_⟩
  refine List.mem_map.mpr ⟨q, ?_, ?_⟩
  · rw [List.take_range]
    exact List.mem_range.mpr (lt_min hq hq')
  · rw [div_neg]

/-- C2 (witness).  The amended normalization applied to the concrete block
of the counterexample: the triple for neighbor 0 predicting member 1. -/
theorem C2_amended_column_normalization_witness :
    ((0 : ℕ), (1 : ℕ),
      -(invEntry [[3/5, -1/5], [-1/5, 2/5]] 0 1 /
        invEntry [[3/5, -1/5], [-1/5, 2/5]] 1 1)) ∈
      [((0 : ℕ), (0 : ℕ), (-1 : ℚ)), (0, 1, 1/2), (1, 0, 1/3), (1, 1, -1)] :=
  C2_amended_column_normalization XtXc2 1 [0, 1] _ _ 0 1
    (by with_unfolding_all rfl) (by with_unfolding_all rfl)
    (by norm_num) (of_decide_eq_true (by with_unfolding_all rfl)) (by norm_num)

/-- Inversion of a successful `sparse_solution` run: the sparsity pattern
was computed from the incoming `AtA` global and the returned state holds it,
together with the doubly overwritten `XtX`. -/
theorem sparse_solution_inv {rr : ℚ} {K : ℕ} {L2 : ℚ} {s : GlobalState}
    {s' : GlobalState} {BB : ℕ → ℕ → ℚ}
    (h : sparse_solution rr K L2 s = some (s', BB)) :
    calculate_sparsity_pattern s.AtA s.n K = some s'.AtA ∧
    s'.XtX = (fun i j => if i = j then s.XtXdiag i + L2
      else if i = j then s.XtXdiag i else s.XtX i j) ∧
    s'.XtXdiag = s.XtXdiag ∧ s'.n = s.n := by
  unfold sparse_solution at h
  rcases hc : calculate_sparsity_pattern s.AtA s.n K with _ | AAs
  · rw [hc] at h; exact absurd h (by simp)
  · rw [hc] at h
    simp only at h
    rcases hp : sparse_parameter_estimation rr
        (fun i j => if i = j then s.XtXdiag i + L2
          else if i = j then s.XtXdiag i else s.XtX i j)
        (fun i j => spVal AAs i j) (fun i => s.XtXdiag i + L2) s.n with _ | BB0
    · rw [hp] at h; exact absurd h (by simp)
    · rw [hp] at h
      simp only [Option.some.injEq, Prod.mk.injEq] at h
      obtain ⟨hs', _⟩ := h
      subst hs'
      exact ⟨rfl, rfl, rfl, rfl⟩

/-- `Int.fdiv` of a positive numerator by a negative denominator is
negative (`blocks = n // bs + 1` is then non-positive). -/
theorem fdiv_neg_of_pos_of_neg {a b : ℤ} (ha : 0 < a) (hb : b < 0) :
    a.fdiv b < 0 := by
  match a, b with
  | Int.ofNat 0, _ => exact absurd ha (by simp)
  | Int.negSucc m, _ =>
    exact absurd (lt_trans ha (Int.negSucc_lt_zero m)) (lt_irrefl 0)
  | _, Int.ofNat k => exact absurd hb (not_lt.mpr (Int.ofNat_nonneg k))
  | Int.ofNat (m+1), Int.negSucc k =>
    exact Int.negSucc_lt_zero (m / (k+1))

/-- C7 (counterexample).  The hyperparameter `r = 2` violates `r ≤ 1`, yet
the run completes and produces a weight matrix: no configuration error is
raised anywhere in the pipeline. -/
theorem C7_counterexample : (sparse_solution 2 1 1 st0).isSome = true := by
  with_unfolding_all rfl

/-- C7 (amended).  The code performs no hyperparameter validation.  Runs
with `r ≤ 0`, `r > 1`, or `thd4comp < thd4mem` complete normally and
produce a weight matrix; only a non-positive `block_size` aborts
`filter_XtX` (`block_size = 0` through the division `n // bs`,
`block_size < 0` with at least one item through the never-assigned
accumulators), and that failure is not a configuration error either. -/
theorem C7_amended_no_validation :
    (∀ (U n : ℕ) (X : ℕ → ℕ → ℚ) (bs : ℤ) (tm tc : ℚ) (pw : ℚ → ℚ),
      bs = 0 ∨ (bs < 0 ∧ 0 < n) → filter_XtX U n X bs tm tc pw = none) ∧
    (sparse_solution (-1) 1 1 st0).isSome = true ∧
    (filter_XtX 2 1 X21 1 1 0 id).isSome = true := by
  refine ⟨?_, by with_unfolding_all rfl, by with_unfolding_all rfl⟩
  intro U n X bs tm tc pw hbs
  rcases hbs with rfl | ⟨hneg, hn⟩
  · rw [filter_XtX, if_pos rfl]
  · have hne : bs ≠ 0 := by omega
    have hlt : Int.fdiv (n : ℤ) bs < 0 :=
      fdiv_neg_of_pos_of_neg (by exact_mod_cast hn) hneg
    rw [filter_XtX, if_neg hne]
    simp only
    rw [if_pos (by omega)]

/-- C7 (witness).  The amended theorem applied at `block_size = 0`:
`filter_XtX` fails on an otherwise benign input. -/
theorem C7_amended_no_validation_witness :
    filter_XtX 2 1 X21 0 1 0 id = none :=
  C7_amended_no_validation.1 2 1 X21 0 1 0 id (Or.inl rfl)

/-- C9 (confirmed).  `calculate_sparsity_pattern` aliases and mutates the
`AtA` global in place: after `sparse_solution` returns, the caller's `AtA`
is exactly the capped sparsity mask `AA`. -/
theorem C9_AtA_overwritten (rr : ℚ) (K : ℕ) (L2 : ℚ) (s s' : GlobalState)
    (BB : ℕ → ℕ → ℚ) (h : sparse_solution rr K L2 s = some (s', BB)) :
    calculate_sparsity_pattern s.AtA s.n K = some s'.AtA :=
  (sparse_solution_inv h).1

/-- C9 (witness).  On the 1-item pipeline the returned `AtA` global is the
capped mask of the input `AtA`. -/
theorem C9_AtA_overwritten_witness :
    (sparse_solution 1 1 1 st0).map obsC9 = some [(0, 0, (1 : ℚ))] := by
  rcases h : sparse_solution 1 1 1 st0 with _ | p
  · have hs : (sparse_solution 1 1 1 st0).isSome = true := by with_unfolding_all rfl
    rw [h] at hs; exact absurd hs (by simp)
  · have h1 := C9_AtA_overwritten 1 1 1 st0 p.1 p.2 (by rw [h])
    have h2 : calculate_sparsity_pattern st0.AtA st0.n 1 = some [(0, 0, (1 : ℚ))] := by
      with_unfolding_all rfl
    rw [h1] at h2
    simp only [Option.map, h, obsC9]
    rw [← Option.some.injEq] at h2 ⊢
    exact h2

/-- C10 (confirmed).  `sparse_solution` overwrites the shared `XtX`
diagonal, finally with `XtXdiag + L2reg`, and never restores it: the
returned state's diagonal holds the regularized values, while off-diagonal
entries are untouched. -/
theorem C10_diagonal_regularized (rr : ℚ) (K : ℕ) (L2 : ℚ)
    (s s' : GlobalState) (BB : ℕ → ℕ → ℚ)
    (h : sparse_solution rr K L2 s = some (s', BB)) :
    (∀ i, s'.XtX i i = s.XtXdiag i + L2) ∧
    (∀ i j, i ≠ j → s'.XtX i j = s.XtX i j) := by
  obtain ⟨-, hX, -, -⟩ := sparse_solution_inv h
  constructor
  · intro i; rw [hX]; simp
  · intro i j hne; rw [hX]; simp [hne]

/-- C10 (witness).  On the 1-item pipeline with `XtXdiag 0 = 2` and
`L2reg = 1` the returned `XtX 0 0` is `3`. -/
theorem C10_diagonal_regularized_witness :
    (sparse_solution 1 1 1 st0).map obsC10 = some 3 := by
  rcases h : sparse_solution 1 1 1 st0 with _ | p
  · have hs : (sparse_solution 1 1 1 st0).isSome = true := by with_unfolding_all rfl
    rw [h] at hs; exact absurd hs (by simp)
  · have h1 := (C10_diagonal_regularized 1 1 1 st0 p.1 p.2 (by rw [h])).1 0
    simp only [Option.map, h, obsC10]
    rw [h1]
    norm_num [st0]

/-- Permutation of the contribution list permutes the contributions at each
coordinate. -/
theorem contribsAt_perm {l l' : SpMat} (h : l.Perm l') (i j : ℕ) :
    (contribsAt l i j).Perm (contribsAt l' i j) :=
  (h.filter _).map _

/-- `BBsum` entries are invariant under permutation of the triples. -/
theorem sumAt_perm {l l' : SpMat} (h : l.Perm l') (i j : ℕ) :
    sumAt l i j = sumAt l' i j :=
  (contribsAt_perm h i j).sum_eq

/-- `BBcnt` entries are invariant under permutation of the triples. -/
theorem cntAt_perm {l l' : SpMat} (h : l.Perm l') (i j : ℕ) :
    cntAt l i j = cntAt l' i j :=
  (contribsAt_perm h i j).length_eq

/-- The whole averaging step is invariant under permutation of the triples,
failure mode included. -/
theorem aggregate_perm {l l' : SpMat} (h : l.Perm l') :
    aggregate l = aggregate l' := by
  have hfun : (fun i j => sumAt l i j / (cntAt l i j : ℚ)) =
      fun i j => sumAt l' i j / (cntAt l' i j : ℚ) := by
    funext i j
    rw [sumAt_perm h i j, cntAt_perm h i j]
  have hcond : ((∀ t ∈ l, sumAt l t.1 t.2.1 ≠ 0) ∨ (coordsOf l).dedup.length = 1) ↔
      ((∀ t ∈ l', sumAt l' t.1 t.2.1 ≠ 0) ∨ (coordsOf l').dedup.length = 1) := by
    have hd : (coordsOf l).dedup.length = (coordsOf l').dedup.length :=
      ((h.map _).dedup).length_eq
    constructor
    · rintro (H | H)
      · exact Or.inl fun t ht => sumAt_perm h t.1 t.2.1 ▸ H t (h.mem_iff.mpr ht)
      · exact Or.inr (hd ▸ H)
    · rintro (H | H)
      · exact Or.inl fun t ht => (sumAt_perm h t.1 t.2.1).symm ▸
          H t (h.mem_iff.mp ht)
      · exact Or.inr (hd ▸ H)
  unfold aggregate
  rw [if_congr hcond (by rw [hfun]) rfl]

/-- Unfolding step 3 one block at a time. -/
theorem solveAll_cons (XtX : ℕ → ℕ → ℚ) (rr : ℚ) (nn : List ℕ)
    (bl : List (List ℕ)) :
    solveAll XtX rr (nn :: bl) =
      (solveBlock XtX rr nn).bind fun tx =>
        (solveAll XtX rr bl).map fun ts => tx ++ ts := by
  unfold solveAll
  rw [List.mapM_cons]
  cases hb : solveBlock XtX rr nn <;>
    cases hm : bl.mapM (solveBlock XtX rr) <;>
      simp [hb, hm]

/-- Permuting the order in which blocks are solved permutes the emitted
triples, and preserves failure. -/
theorem solveAll_perm (XtX : ℕ → ℕ → ℚ) (rr : ℚ) {bl bl' : List (List ℕ)}
    (h : bl.Perm bl') :
    (solveAll XtX rr bl = none ∧ solveAll XtX rr bl' = none) ∨
    (∃ ts ts', solveAll XtX rr bl = some ts ∧ solveAll XtX rr bl' = some ts' ∧
      ts.Perm ts') := by
  induction h with
  | nil => exact Or.inr ⟨[], [], rfl, rfl, List.Perm.refl _⟩
  | cons x h IH =>
    rw [solveAll_cons, solveAll_cons]
    cases hb : solveBlock XtX rr x
    · exact Or.inl ⟨rfl, rfl⟩
    · rcases IH with ⟨h1, h2⟩ | ⟨ts, ts', h1, h2, hp⟩
      · rw [h1, h2]; exact Or.inl ⟨rfl, rfl⟩
      · rw [h1, h2]
        exact Or.inr ⟨_, _, rfl, rfl, hp.append_left _⟩
  | swap x y l =>
    rw [solveAll_cons, solveAll_cons, solveAll_cons, solveAll_cons]
    cases hx : solveBlock XtX rr x with
    | none =>
      cases hy : solveBlock XtX rr y with
      | none => exact Or.inl ⟨rfl, rfl⟩
      | some ty => exact Or.inl ⟨by simp, rfl⟩
    | some tx =>
      cases hy : solveBlock XtX rr y with
      | none => exact Or.inl ⟨rfl, by simp⟩
      | some ty =>
        cases hl : solveAll XtX rr l with
        | none => exact Or.inl ⟨by simp, by simp⟩
        | some ts =>
          refine Or.inr ⟨ty ++ (tx ++ ts), tx ++ (ty ++ ts),
            by simp [hl], by simp [hl], ?_⟩
          rw [← List.append_assoc, ← List.append_assoc]
          exact List.perm_append_comm.append_right _
  | trans h1 h2 IH1 IH2 =>
    rcases IH1 with ⟨ha, hb⟩ | ⟨ts, ts', ha, hb, hp⟩
    · rcases IH2 with ⟨hc, hd⟩ | ⟨us, us', hc, hd, hq⟩
      · exact Or.inl ⟨ha, hd⟩
      · rw [hb] at hc; cases hc
    · rcases IH2 with ⟨hc, hd⟩ | ⟨us, us', hc, hd, hq⟩
      · rw [hb] at hc; cases hc
      · rw [hb] at hc
        injection hc with hc
        subst hc
        exact Or.inr ⟨ts, us', ha, hd, hp.trans hq⟩

/-- C6 (confirmed).  The aggregated matrix averages: permuting the triples
preserves the whole aggregation; at every contributed coordinate the value
is the arithmetic mean (sum over count) of the contributions; and permuting
the order in which blocks are solved leaves the aggregated matrix
unchanged. -/
theorem C6_average_and_order_invariance :
    (∀ l l' : SpMat, l.Perm l' → aggregate l = aggregate l') ∧
    (∀ (l : SpMat) (BB : ℕ → ℕ → ℚ) (i j : ℕ), aggregate l = some BB →
      0 < cntAt l i j →
      BB i j = (contribsAt l i j).sum / ((contribsAt l i j).length : ℚ)) ∧
    (∀ (XtX : ℕ → ℕ → ℚ) (rr : ℚ) (bl bl' : List (List ℕ)), bl.Perm bl' →
      (solveAll XtX rr bl).bind aggregate = (solveAll XtX rr bl').bind aggregate) := by
  refine ⟨fun l l' h => aggregate_perm h, ?_, ?_⟩
  · intro l BB i j h _
    unfold aggregate at h
    split at h
    · injection h with h
      subst h
      rfl
    · cases h
  · intro XtX rr bl bl' h
    rcases solveAll_perm XtX rr h with ⟨h1, h2⟩ | ⟨ts, ts', h1, h2, hp⟩
    · rw [h1, h2]
    · rw [h1, h2]
      exact aggregate_perm hp

/-- C6 (witness).  Two contributions `3` and `5` to coordinate `(0, 1)`:
appending them in either order aggregates identically, and the aggregated
value is their mean. -/
theorem C6_average_and_order_invariance_witness :
    aggregate l6 = aggregate l6r ∧
    (aggregate l6).map obsC6 =
      some ((contribsAt l6 0 1).sum / ((contribsAt l6 0 1).length : ℚ)) := by
  constructor
  · exact C6_average_and_order_invariance.1 l6 l6r (List.Perm.swap _ _ _)
  · rcases h : aggregate l6 with _ | BB
    · have hs : (aggregate l6).isSome = true := by with_unfolding_all rfl
      rw [h] at hs; exact absurd hs (by simp)
    · have := C6_average_and_order_invariance.2.1 l6 BB 0 1 h
        (of_decide_eq_true (by with_unfolding_all rfl))
      simp only [Option.map, obsC6]
      rw [this]

/-- A successful aggregation returns exactly the sum-over-count function. -/
theorem aggregate_some {l : SpMat} {f : ℕ → ℕ → ℚ} (h : aggregate l = some f) :
    f = fun i j => sumAt l i j / (cntAt l i j : ℚ) := by
  unfold aggregate at h
  split at h
  · injection h with h
    exact h.symm
  · cases h

/-- Inversion of a successful `sparse_parameter_estimation` run. -/
theorem sparse_parameter_estimation_inv {rr : ℚ} {XtX AA : ℕ → ℕ → ℚ}
    {diag : ℕ → ℚ} {n : ℕ} {BB : ℕ → ℕ → ℚ}
    (h : sparse_parameter_estimation rr XtX AA diag n = some BB) :
    ∃ ts BBavg, solveAll XtX rr (blockListOf rr AA diag n) = some ts ∧
      aggregate ts = some BBavg ∧
      BB = fun i j => if AA i j ≠ 0 then (if i = j then 0 else BBavg i j) else 0 := by
  unfold sparse_parameter_estimation at h
  rcases hts : solveAll XtX rr (blockListOf rr AA diag n) with _ | ts
  · rw [hts] at h; cases h
  · rw [hts] at h
    simp only at h
    rcases ha : aggregate ts with _ | BBavg
    · rw [ha] at h; cases h
    · rw [ha] at h
      injection h with h
      exact ⟨ts, BBavg, rfl, ha, h.symm⟩

/-- C3 (confirmed).  After aggregation, diagonal forcing, restriction to
`AA`'s support and the final popularity rescaling, the weight matrix is `0`
on the whole diagonal, `0` outside `AA`'s support, and `0` at every
coordinate without a block contribution; the rescaling's row factor times
column factor is `1` wherever the rescaling vector is nonzero, so it
preserves all three properties. -/
theorem C3_weight_matrix_invariants (rr : ℚ) (XtX AA : ℕ → ℕ → ℚ)
    (diag : ℕ → ℚ) (n : ℕ) (BB : ℕ → ℕ → ℚ) (ts : SpMat) (resc : ℕ → ℚ)
    (hts : solveAll XtX rr (blockListOf rr AA diag n) = some ts)
    (h : sparse_parameter_estimation rr XtX AA diag n = some BB) :
    (∀ i, rescaleBB (scalingVec resc) resc BB i i = 0) ∧
    (∀ i j, AA i j = 0 → rescaleBB (scalingVec resc) resc BB i j = 0) ∧
    (∀ i j, cntAt ts i j = 0 → rescaleBB (scalingVec resc) resc BB i j = 0) ∧
    (∀ i, resc i ≠ 0 → scalingVec resc i * resc i = 1) := by
  obtain ⟨ts', BBavg, hts', ha, hBB⟩ := sparse_parameter_estimation_inv h
  rw [hts] at hts'
  injection hts' with hts'
  subst hts'
  have hBB0 : ∀ i j, AA i j = 0 → BB i j = 0 := by
    intro i j h0; rw [hBB]; simp [h0]
  refine ⟨?_, ?_, ?_, ?_⟩
  · intro i
    have : BB i i = 0 := by
      rw [hBB]
      by_cases h0 : AA i i = 0 <;> simp [h0]
    unfold rescaleBB
    rw [this, mul_zero, zero_mul]
  · intro i j h0
    unfold rescaleBB
    rw [hBB0 i j h0, mul_zero, zero_mul]
  · intro i j hc
    have hsum : sumAt ts i j = 0 := by
      unfold cntAt at hc
      unfold sumAt
      rw [List.length_eq_zero.mp hc]
      rfl
    have : BB i j = 0 := by
      rw [hBB, aggregate_some ha]
      by_cases h0 : AA i j = 0
      · simp [h0]
      · by_cases hij : i = j
        · simp [h0, hij]
        · simp only [ne_eq, h0, not_false_iff, if_true, hij, if_false]
          rw [hsum, zero_div]
    unfold rescaleBB
    rw [this, mul_zero, zero_mul]
  · intro i hi
    unfold scalingVec
    exact one_div_mul_cancel hi

/-- C3 (witness).  The 1-item pipeline output, rescaled with unit factors,
is `0` at the diagonal coordinate `(0, 0)`. -/
theorem C3_weight_matrix_invariants_witness :
    (sparse_parameter_estimation 1 XtXc2 AA1 diag1 1).map obsC3 = some 0 := by
  rcases hts : solveAll XtXc2 1 (blockListOf 1 AA1 diag1 1) with _ | ts
  · have hs : (solveAll XtXc2 1 (blockListOf 1 AA1 diag1 1)).isSome = true := by
      with_unfolding_all rfl
    rw [hts] at hs; exact absurd hs (by simp)
  · rcases h : sparse_parameter_estimation 1 XtXc2 AA1 diag1 1 with _ | BB
    · have hs : (sparse_parameter_estimation 1 XtXc2 AA1 diag1 1).isSome = true := by
        with_unfolding_all rfl
      rw [h] at hs; exact absurd hs (by simp)
    · have hz := (C3_weight_matrix_invariants 1 XtXc2 AA1 diag1 1 BB ts
        (fun _ => 1) hts h).1 0
      simp only [Option.map, obsC3]
      rw [hz]

/-- Stored-coordinate membership unfolded to an existential over triples. -/
theorem hasCoord_iff {A : SpMat} {i j : ℕ} :
    hasCoord A i j ↔ ∃ t ∈ A, t.1 = i ∧ t.2.1 = j := by
  unfold hasCoord coordsOf
  rw [List.mem_map]
  constructor
  · rintro ⟨t, ht, he⟩
    exact ⟨t, ht, congrArg Prod.fst he, congrArg Prod.snd he⟩
  · rintro ⟨t, ht, h1, h2⟩
    exact ⟨t, ht, by rw [h1, h2]⟩

/-- `spVal` of a cons. -/
theorem spVal_cons (t : ℕ × ℕ × ℚ) (A : SpMat) (i j : ℕ) :
    spVal (t :: A) i j =
      (if t.1 = i ∧ t.2.1 = j then t.2.2 else 0) + spVal A i j := by
  unfold spVal
  rw [List.filter_cons]
  by_cases h : t.1 = i ∧ t.2.1 = j
  · rw [if_pos (by simpa using h), List.map_cons, List.sum_cons, if_pos h]
  · rw [if_neg (by simpa using h), if_neg h, zero_add]

/-- `spVal` distributes over append. -/
theorem spVal_append (A B : SpMat) (i j : ℕ) :
    spVal (A ++ B) i j = spVal A i j + spVal B i j := by
  unfold spVal
  rw [List.filter_append, List.map_append, List.sum_append]

/-- `spVal` of a flat map is the sum of the per-chunk values. -/
theorem spVal_flatMap {α : Type} (f : α → SpMat) (l : List α) (i j : ℕ) :
    spVal (l.flatMap f) i j = (l.map fun x => spVal (f x) i j).sum := by
  induction l with
  | nil => rfl
  | cons x xs IH =>
    rw [List.flatMap_cons, spVal_append, IH, List.map_cons, List.sum_cons]

/-- Sum of a function that vanishes off one element of a duplicate-free
list. -/
theorem sum_single {α : Type} [DecidableEq α] (l : List α) (f : α → ℚ)
    (a : α) (hnd : l.Nodup) (h0 : ∀ x ∈ l, x ≠ a → f x = 0) :
    (l.map f).sum = if a ∈ l then f a else 0 := by
  induction l with
  | nil => simp
  | cons x xs IH =>
    rw [List.map_cons, List.sum_cons]
    rcases List.nodup_cons.mp hnd with ⟨hx, hxs⟩
    by_cases hax : x = a
    · subst hax
      have hz : (xs.map f).sum = 0 := by
        apply List.sum_eq_zero
        intro y hy
        rcases List.mem_map.mp hy with ⟨z, hz, rfl⟩
        exact h0 z (List.mem_cons_of_mem _ hz) fun he => hx (he ▸ hz)
      rw [hz, add_zero, if_pos (List.mem_cons_self _ _)]
    · rw [h0 x (List.mem_cons_self _ _) hax, zero_add,
        IH hxs fun z hz hza => h0 z (List.mem_cons_of_mem _ hz) hza]
      by_cases ha : a ∈ xs
      · rw [if_pos ha, if_pos (List.mem_cons_of_mem _ ha)]
      · rw [if_neg ha, if_neg fun hmem => by
          rcases List.mem_cons.mp hmem with h | h
          · exact hax h.symm
          · exact ha h]

/-- `spVal` of one filtered, mapped column of triples with a fixed row. -/
theorem spVal_column {l : List ℕ} (hnd : l.Nodup) (a i j : ℕ) (g : ℕ → ℚ)
    (p : ℕ → Bool) :
    spVal ((l.filter p).map fun b => (a, b, g b)) i j =
      if a = i ∧ j ∈ l ∧ p j = true then g j else 0 := by
  induction l with
  | nil => simp [spVal]
  | cons b bs IH =>
    rcases List.nodup_cons.mp hnd with ⟨hb, hbs⟩
    rw [List.filter_cons]
    by_cases hpb : p b = true
    · rw [if_pos hpb, List.map_cons, spVal_cons, IH hbs]
      by_cases hbj : b = j
      · subst hbj
        have hnb : b ∉ bs := hb
        by_cases hai : a = i
        · rw [if_pos ⟨hai, rfl⟩, if_neg (fun hc => hnb hc.2.1), add_zero,
            if_pos ⟨hai, List.mem_cons_self _ _, hpb⟩]
        · rw [if_neg (fun hc => hai hc.1), if_neg (fun hc => hai hc.1),
            if_neg (fun hc => hai hc.1), add_zero]
      · rw [if_neg (fun hc => hbj hc.2), zero_add]
        by_cases hm : a = i ∧ j ∈ bs ∧ p j = true
        · rw [if_pos hm, if_pos ⟨hm.1, List.mem_cons_of_mem _ hm.2.1, hm.2.2⟩]
        · rw [if_neg hm, if_neg fun hc => hm ⟨hc.1, by
            rcases List.mem_cons.mp hc.2.1 with h | h
            · exact absurd h.symm hbj
            · exact h, hc.2.2⟩]
    · rw [if_neg hpb, IH hbs]
      by_cases hbj : b = j
      · subst hbj
        rw [if_neg (fun hc => hb hc.2.1), if_neg (fun hc => hpb (hc.2.2))]
      · by_cases hm : a = i ∧ j ∈ bs ∧ p j = true
        · rw [if_pos hm, if_pos ⟨hm.1, List.mem_cons_of_mem _ hm.2.1, hm.2.2⟩]
        · rw [if_neg hm, if_neg fun hc => hm ⟨hc.1, by
            rcases List.mem_cons.mp hc.2.1 with h | h
            · exact absurd h.symm hbj
            · exact h, hc.2.2⟩]

/-- Membership in a tile's column slice. -/
theorem mem_tileCols {n : ℕ} {bs : ℤ} {ii k : ℕ} :
    k ∈ tileCols n bs ii ↔
      k < n ∧ bs * ii ≤ (k : ℤ) ∧ (k : ℤ) < bs * (ii + 1) := by
  unfold tileCols
  rw [List.mem_filter, List.mem_range, decide_eq_true_eq]

/-- Tile column slices list each index at most once. -/
theorem nodup_tileCols (n : ℕ) (bs : ℤ) (ii : ℕ) : (tileCols n bs ii).Nodup :=
  (List.nodup_range n).filter _

/-- With a positive block size, an index below `n` lies in exactly the tile
numbered by its floor quotient. -/
theorem tileCols_unique {n : ℕ} {bs : ℤ} (hbs : 0 < bs) {k : ℕ} (hk : k < n)
    (ii : ℕ) : k ∈ tileCols n bs ii ↔ ii = k / bs.toNat := by
  have hBeq : ((bs.toNat : ℕ) : ℤ) = bs := Int.toNat_of_nonneg hbs.le
  have hB : 0 < bs.toNat := by omega
  rw [mem_tileCols, ← hBeq]
  have hle : ((bs.toNat : ℕ) : ℤ) * (ii : ℤ) ≤ (k : ℤ) ↔ bs.toNat * ii ≤ k := by
    exact_mod_cast Iff.rfl
  have hlt : (k : ℤ) < ((bs.toNat : ℕ) : ℤ) * ((ii : ℤ) + 1) ↔
      k < bs.toNat * (ii + 1) := by
    exact_mod_cast Iff.rfl
  rw [hle, hlt]
  constructor
  · rintro ⟨-, hlo, hhi⟩
    exact (Nat.div_eq_of_lt_le (by rw [Nat.mul_comm]; exact hlo)
      (by rw [Nat.mul_comm]; exact hhi)).symm
  · rintro rfl
    refine ⟨hk, ?_, ?_⟩
    · rw [Nat.mul_comm]
      exact Nat.div_mul_le_self k bs.toNat
    · have hmod := Nat.div_add_mod k bs.toNat
      have hlt' := Nat.mod_lt k hB
      calc k = bs.toNat * (k / bs.toNat) + k % bs.toNat := hmod.symm
        _ < bs.toNat * (k / bs.toNat) + bs.toNat := by omega
        _ = bs.toNat * (k / bs.toNat + 1) := by ring

/-- The tile number of an index below `n` is below the block count. -/
theorem tileIdx_lt_blocks {n : ℕ} {bs : ℤ} (hbs : 0 < bs) {k : ℕ}
    (hk : k < n) : k / bs.toNat < (Int.fdiv (n : ℤ) bs + 1).toNat := by
  have hBeq : ((bs.toNat : ℕ) : ℤ) = bs := Int.toNat_of_nonneg hbs.le
  have hf : (Int.fdiv (n : ℤ) bs + 1).toNat = n / bs.toNat + 1 := by
    conv_lhs => rw [← hBeq, ← Int.ofNat_fdiv]
    generalize n / bs.toNat = m
    omega
  rw [hf]
  exact Nat.lt_succ_of_le (Nat.div_le_div_right hk.le)

/-- Inversion of a successful `filter_XtX` run: the block size was accepted
and the result is the accumulated tile list plus its `thd4comp`-filtered
copy. -/
theorem filter_XtX_inv {U n : ℕ} {X : ℕ → ℕ → ℚ} {bs : ℤ} {tm tc : ℚ}
    {pw : ℚ → ℚ} {r : FilterOut} (h : filter_XtX U n X bs tm tc pw = some r) :
    bs ≠ 0 ∧ 0 < Int.fdiv (n : ℤ) bs + 1 ∧
    r.XtX = ((List.range (Int.fdiv (n : ℤ) bs + 1).toNat).flatMap fun ii =>
      (List.range (Int.fdiv (n : ℤ) bs + 1).toNat).flatMap fun jj =>
        tileTriples U n X pw bs tm ii jj) ∧
    r.AtA = r.XtX.filter (fun t => decide (tc ≤ |t.2.2|)) := by
  unfold filter_XtX at h
  by_cases hbs : bs = 0
  · rw [if_pos hbs] at h; cases h
  · rw [if_neg hbs] at h
    simp only at h
    by_cases hbl : Int.fdiv (n : ℤ) bs + 1 ≤ 0
    · rw [if_pos hbl] at h; cases h
    · rw [if_neg hbl] at h
      injection h with h
      subst h
      exact ⟨hbs, by omega, rfl, rfl⟩

/-- A successful `filter_XtX` with at least one item forces a positive
block size. -/
theorem bs_pos_of_filter_some {U n : ℕ} {X : ℕ → ℕ → ℚ} {bs : ℤ}
    {tm tc : ℚ} {pw : ℚ → ℚ} {r : FilterOut}
    (h : filter_XtX U n X bs tm tc pw = some r) (hn : 0 < n) : 0 < bs := by
  obtain ⟨hbs0, hbl, -, -⟩ := filter_XtX_inv h
  rcases lt_or_gt_of_ne hbs0 with hlt | hgt
  · exfalso
    have := fdiv_neg_of_pos_of_neg (show (0 : ℤ) < (n : ℤ) by exact_mod_cast hn) hlt
    omega
  · exact hgt

/-- Value of one tile's contribution at a coordinate. -/
theorem spVal_tileTriples (U n : ℕ) (X : ℕ → ℕ → ℚ) (pw : ℚ → ℚ) (bs : ℤ)
    (tm : ℚ) (ii jj i j : ℕ) :
    spVal (tileTriples U n X pw bs tm ii jj) i j =
      if i ∈ tileCols n bs ii ∧ j ∈ tileCols n bs jj ∧ tm < |gram U X pw i j|
      then gram U X pw i j else 0 := by
  unfold tileTriples
  rw [spVal_flatMap]
  rw [sum_single _ _ i (nodup_tileCols n bs ii) (fun a _ ha => by
    rw [spVal_column (nodup_tileCols n bs jj)]
    exact if_neg fun hc => ha hc.1)]
  by_cases h1 : i ∈ tileCols n bs ii
  · rw [if_pos h1, spVal_column (nodup_tileCols n bs jj)]
    by_cases h2 : j ∈ tileCols n bs jj
    · by_cases h3 : tm < |gram U X pw i j|
      · rw [if_pos ⟨rfl, h2, decide_eq_true h3⟩, if_pos ⟨h1, h2, h3⟩]
      · rw [if_neg fun hc => h3 (of_decide_eq_true hc.2.2),
          if_neg fun hc => h3 hc.2.2]
    · rw [if_neg fun hc => h2 hc.2.1, if_neg fun hc => h2 hc.2.1]
  · rw [if_neg h1, if_neg fun hc => h1 hc.1]

/-- Entry-wise value of the accumulated `XtX`: exactly the thresholded
centered rescaled cross-product. -/
theorem filter_XtX_value {U n : ℕ} {X : ℕ → ℕ → ℚ} {bs : ℤ} {tm tc : ℚ}
    {pw : ℚ → ℚ} {r : FilterOut} (h : filter_XtX U n X bs tm tc pw = some r)
    {i j : ℕ} (hi : i < n) (hj : j < n) :
    spVal r.XtX i j =
      if tm < |gram U X pw i j| then gram U X pw i j else 0 := by
  obtain ⟨-, -, hX, -⟩ := filter_XtX_inv h
  have hbs : 0 < bs := bs_pos_of_filter_some h (Nat.zero_lt_of_lt hi)
  rw [hX, spVal_flatMap]
  rw [sum_single _ _ (i / bs.toNat) (List.nodup_range _) (fun ii _ hne => by
    rw [spVal_flatMap]
    apply List.sum_eq_zero
    intro y hy
    rcases List.mem_map.mp hy with ⟨jj, -, rfl⟩
    rw [spVal_tileTriples]
    exact if_neg fun hc => hne ((tileCols_unique hbs hi ii).mp hc.1))]
  rw [if_pos (List.mem_range.mpr (tileIdx_lt_blocks hbs hi))]
  rw [spVal_flatMap]
  rw [sum_single _ _ (j / bs.toNat) (List.nodup_range _) (fun jj _ hne => by
    rw [spVal_tileTriples]
    exact if_neg fun hc => hne ((tileCols_unique hbs hj jj).mp hc.2.1))]
  rw [if_pos (List.mem_range.mpr (tileIdx_lt_blocks hbs hj))]
  rw [spVal_tileTriples]
  by_cases h3 : tm < |gram U X pw i j|
  · rw [if_pos ⟨(tileCols_unique hbs hi _).mpr rfl,
      (tileCols_unique hbs hj _).mpr rfl, h3⟩, if_pos h3]
  · rw [if_neg fun hc => h3 hc.2.2, if_neg h3]

/-- Shape of every triple stored in the accumulated `XtX` list, and the
converse construction. -/
theorem filter_XtX_mem {U n : ℕ} {X : ℕ → ℕ → ℚ} {bs : ℤ} {tm tc : ℚ}
    {pw : ℚ → ℚ} {r : FilterOut} (h : filter_XtX U n X bs tm tc pw = some r)
    {t : ℕ × ℕ × ℚ} :
    t ∈ r.XtX ↔
      t.1 < n ∧ t.2.1 < n ∧ tm < |gram U X pw t.1 t.2.1| ∧
        t.2.2 = gram U X pw t.1 t.2.1 := by
  obtain ⟨-, -, hX, -⟩ := filter_XtX_inv h
  rw [hX]
  constructor
  · intro hmem
    rcases List.mem_flatMap.mp hmem with ⟨ii, -, hmem⟩
    rcases List.mem_flatMap.mp hmem with ⟨jj, -, hmem⟩
    rcases List.mem_flatMap.mp hmem with ⟨a, ha, hmem⟩
    rcases List.mem_map.mp hmem with ⟨b, hb, rfl⟩
    rcases List.mem_filter.mp hb with ⟨hb, hpb⟩
    exact ⟨(mem_tileCols.mp ha).1, (mem_tileCols.mp hb).1,
      of_decide_eq_true hpb, rfl⟩
  · rcases t with ⟨a, b, v⟩
    rintro ⟨ha, hb, hp, hv⟩
    dsimp only at ha hb hp hv
    subst hv
    have hbs : 0 < bs := bs_pos_of_filter_some h (Nat.zero_lt_of_lt ha)
    refine List.mem_flatMap.mpr ⟨a / bs.toNat,
      List.mem_range.mpr (tileIdx_lt_blocks hbs ha), ?_⟩
    refine List.mem_flatMap.mpr ⟨b / bs.toNat,
      List.mem_range.mpr (tileIdx_lt_blocks hbs hb), ?_⟩
    refine List.mem_flatMap.mpr ⟨a, (tileCols_unique hbs ha _).mpr rfl, ?_⟩
    refine List.mem_map.mpr ⟨b, List.mem_filter.mpr
      ⟨(tileCols_unique hbs hb _).mpr rfl, decide_eq_true hp⟩, rfl⟩

/-- C8 (counterexample).  With `thd4comp = thd4mem = 1` on a 2-user, 1-item
input (identity power), `AtA` and `XtX` hold exactly the same single
coordinate, so `AtA`'s support is not a strict subset of `XtX`'s. -/
theorem C8_counterexample :
    (filter_XtX 2 1 X21 1 1 1 id).map
        (fun r => (coordsOf r.AtA, coordsOf r.XtX)) =
      some ([(0, 0)], [(0, 0)]) := by
  with_unfolding_all rfl

/-- C8 (amended).  `filter_XtX` keeps in `XtX` exactly the tile entries
with `|value| > thd4mem` (with exactly that value), keeps in `AtA` exactly
the retained entries with `|value| >= thd4comp`, and `AtA`'s support is a
subset — not in general a strict subset — of `XtX`'s support. -/
theorem C8_amended_thresholds (U n : ℕ) (X : ℕ → ℕ → ℚ) (bs : ℤ)
    (tm tc : ℚ) (pw : ℚ → ℚ) (r : FilterOut)
    (h : filter_XtX U n X bs tm tc pw = some r) :
    (∀ i j, i < n → j < n →
      (hasCoord r.XtX i j ↔ tm < |gram U X pw i j|) ∧
      spVal r.XtX i j =
        (if tm < |gram U X pw i j| then gram U X pw i j else 0) ∧
      (hasCoord r.AtA i j ↔
        tm < |gram U X pw i j| ∧ tc ≤ |gram U X pw i j|)) ∧
    (∀ i j, hasCoord r.AtA i j → hasCoord r.XtX i j) := by
  obtain ⟨-, -, -, hA⟩ := filter_XtX_inv h
  constructor
  · intro i j hi hj
    refine ⟨?_, filter_XtX_value h hi hj, ?_⟩
    · rw [hasCoord_iff]
      constructor
      · rintro ⟨t, ht, h1, h2⟩
        have := (filter_XtX_mem h).mp ht
        rw [h1, h2] at this
        exact this.2.2.1
      · intro hp
        exact ⟨(i, j, gram U X pw i j),
          (filter_XtX_mem h).mpr ⟨hi, hj, hp, rfl⟩, rfl, rfl⟩
    · rw [hasCoord_iff, hA]
      constructor
      · rintro ⟨t, ht, h1, h2⟩
        rcases List.mem_filter.mp ht with ⟨hmem, hpc⟩
        have hm := (filter_XtX_mem h).mp hmem
        rw [h1, h2] at hm
        refine ⟨hm.2.2.1, ?_⟩
        have := of_decide_eq_true hpc
        rw [hm.2.2.2] at this
        exact this
      · rintro ⟨hp, hc⟩
        refine ⟨(i, j, gram U X pw i j), List.mem_filter.mpr
          ⟨(filter_XtX_mem h).mpr ⟨hi, hj, hp, rfl⟩, decide_eq_true hc⟩,
          rfl, rfl⟩
  · intro i j hc
    rw [hasCoord_iff] at hc ⊢
    rcases hc with ⟨t, ht, h1, h2⟩
    rw [hA] at ht
    exact ⟨t, (List.mem_filter.mp ht).1, h1, h2⟩

/-- C8 (witness).  The amended characterization applied at the concrete
input of the counterexample: coordinate `(0, 0)` is stored because its
cross-product value `2` exceeds `thd4mem = 1`. -/
theorem C8_amended_thresholds_witness :
    (filter_XtX 2 1 X21 1 1 1 id).map obsC8 = some true := by
  rcases h : filter_XtX 2 1 X21 1 1 1 id with _ | r
  · have hs : (filter_XtX 2 1 X21 1 1 1 id).isSome = true := by
      with_unfolding_all rfl
    rw [h] at hs; exact absurd hs (by simp)
  · have hiff := (((C8_amended_thresholds 2 1 X21 1 1 1 id r h).1 0 0
      (by norm_num) (by norm_num)).1)
    have hval : (1 : ℚ) < |gram 2 X21 id 0 0| :=
      of_decide_eq_true (by with_unfolding_all rfl)
    simp only [Option.map, obsC8]
    rw [decide_eq_true (hiff.mpr hval)]

/-- C5 (confirmed).  With `thd4mem = 0` and `block_size >= n` (indeed with
any accepted block size), the `XtX` assembled from tiles agrees entry-wise
and exactly (rationals replace floats) with the naive unblocked dense
computation of the centered, popularity-rescaled cross-product. -/
theorem C5_blocked_equals_naive (U n : ℕ) (X : ℕ → ℕ → ℚ) (bs : ℤ)
    (tc : ℚ) (pw : ℚ → ℚ) (r : FilterOut)
    (h : filter_XtX U n X bs 0 tc pw = some r) (_hbs : (n : ℤ) ≤ bs)
    (i j : ℕ) (hi : i < n) (hj : j < n) :
    spVal r.XtX i j = naive_dense_XtX U X pw i j := by
  rw [filter_XtX_value h hi hj]
  have hg : gram U X pw i j = naive_dense_XtX U X pw i j := by
    unfold gram naive_dense_XtX scalingFn
    ring
  by_cases h0 : (0 : ℚ) < |gram U X pw i j|
  · rw [if_pos h0, hg]
  · have hz : gram U X pw i j = 0 :=
      abs_eq_zero.mp (le_antisymm (not_lt.mp h0) (abs_nonneg _))
    rw [if_neg h0, ← hg, hz]

/-- C5 (witness).  On the 2-user, 1-item input with zero memory threshold
and block size 1 ≥ n, the blocked value at `(0, 0)` equals the naive dense
value. -/
theorem C5_blocked_equals_naive_witness :
    (filter_XtX 2 1 X21 1 0 0 id).map obsC5 =
      some (naive_dense_XtX 2 X21 id 0 0) := by
  rcases h : filter_XtX 2 1 X21 1 0 0 id with _ | r
  · have hs : (filter_XtX 2 1 X21 1 0 0 id).isSome = true := by
      with_unfolding_all rfl
    rw [h] at hs; exact absurd hs (by simp)
  · have := C5_blocked_equals_naive 2 1 X21 1 0 id r h (by norm_num) 0 0
      (by norm_num) (by norm_num)
    simp only [Option.map, obsC5]
    rw [this]

/-- A filter that rejects a member strictly shrinks the list. -/
theorem length_filter_lt {α : Type} (p : α → Bool) (l : List α) (a : α)
    (ha : a ∈ l) (hpa : ¬p a = true) : (l.filter p).length < l.length := by
  induction l with
  | nil => cases ha
  | cons x xs IH =>
    rw [List.filter_cons]
    rcases List.mem_cons.mp ha with rfl | hmem
    · rw [if_neg hpa]
      exact Nat.lt_succ_of_le (List.length_filter_le _ _)
    · by_cases hx : p x = true
      · rw [if_pos hx, List.length_cons, List.length_cons]
        exact Nat.succ_lt_succ (IH hmem)
      · rw [if_neg hx, List.length_cons]
        exact Nat.lt_succ_of_le (Nat.le_of_lt (IH hmem))

/-- With no stored zeros, the nonzero entries of a column are all its
stored entries. -/
theorem nzEntries_eq_colEntries {A : SpMat} (hnz : ∀ t ∈ A, t.2.2 ≠ 0)
    (j : ℕ) : nzEntries A j = colEntries A j := by
  unfold nzEntries
  rw [List.filter_eq_self]
  intro t ht
  exact decide_eq_true (hnz t (List.mem_filter.mp ht).1)

/-- Membership in a column's stored entries. -/
theorem mem_colEntries {A : SpMat} {j : ℕ} {t : ℕ × ℕ × ℚ} :
    t ∈ colEntries A j ↔ t ∈ A ∧ t.2.1 = j := by
  unfold colEntries
  rw [List.mem_filter, decide_eq_true_eq]

/-- The magnitude-ranked column is a permutation of the stored column. -/
theorem colSortedDesc_perm {A : SpMat} (hnz : ∀ t ∈ A, t.2.2 ≠ 0) (j : ℕ) :
    (colSortedDesc A j).Perm (colEntries A j) := by
  unfold colSortedDesc
  rw [nzEntries_eq_colEntries hnz]
  exact (List.reverse_perm _).trans (List.perm_insertionSort _ _)

/-- The magnitude-ranked column is sorted by descending magnitude. -/
theorem colSortedDesc_pairwise (A : SpMat) (j : ℕ) :
    (colSortedDesc A j).Pairwise fun s t => |t.2.2| ≤ |s.2.2| := by
  unfold colSortedDesc
  rw [List.pairwise_reverse]
  haveI : IsTotal (ℕ × ℕ × ℚ) fun s t => |s.2.2| ≤ |t.2.2| :=
    ⟨fun a b => le_total _ _⟩
  haveI : IsTrans (ℕ × ℕ × ℚ) fun s t => |s.2.2| ≤ |t.2.2| :=
    ⟨fun a b c => le_trans⟩
  exact List.sorted_insertionSort _ _

/-- Stored column entries of a coordinate-wise duplicate-free matrix are
duplicate-free, coordinates included. -/
theorem coords_col_nodup {A : SpMat} (hnd : (coordsOf A).Nodup) (j : ℕ) :
    (coordsOf (colEntries A j)).Nodup :=
  List.Nodup.sublist ((List.filter_sublist A).map _) hnd

/-- Stored column entries are duplicate-free. -/
theorem col_nodup {A : SpMat} (hnd : (coordsOf A).Nodup) (j : ℕ) :
    (colEntries A j).Nodup :=
  List.Nodup.of_map _ (coords_col_nodup hnd j)

/-- Within one column of a duplicate-free matrix, the row determines the
entry. -/
theorem row_inj {A : SpMat} (hnd : (coordsOf A).Nodup) {j : ℕ}
    {x y : ℕ × ℕ × ℚ} (hx : x ∈ colEntries A j) (hy : y ∈ colEntries A j)
    (he : x.1 = y.1) : x = y := by
  refine List.inj_on_of_nodup_map (coords_col_nodup hnd j) hx hy ?_
  have h1 : x.2.1 = j := (mem_colEntries.mp hx).2
  have h2 : y.2.1 = j := (mem_colEntries.mp hy).2
  rw [Prod.mk.injEq]
  exact ⟨he, h1.trans h2.symm⟩

/-- A column entry's row is a dropped row iff the entry itself lies beyond
position `K` of the magnitude ranking. -/
theorem dropped_iff {A : SpMat} (hnz : ∀ t ∈ A, t.2.2 ≠ 0)
    (hnd : (coordsOf A).Nodup) {j K : ℕ} {t : ℕ × ℕ × ℚ}
    (ht : t ∈ colEntries A j) :
    t.1 ∈ droppedRows A j K ↔ t ∈ (colSortedDesc A j).drop K := by
  unfold droppedRows
  constructor
  · intro hmem
    rcases List.mem_map.mp hmem with ⟨d, hd, hd1⟩
    have hdc : d ∈ colEntries A j :=
      (colSortedDesc_perm hnz j).subset (List.drop_subset _ _ hd)
    rwa [← row_inj hnd hdc ht hd1]
  · intro hmem
    exact List.mem_map_of_mem _ hmem

/-- On an input without stored zeros the `argpartition` guard always
passes, and the output is the single filter of the source. -/
theorem calculate_sparsity_pattern_some {A : SpMat} (n K : ℕ)
    (hnz : ∀ t ∈ A, t.2.2 ≠ 0) :
    calculate_sparsity_pattern A n K =
      some (A.filter fun t =>
        decide (t.2.2 ≠ 0 ∧
          ¬(t.2.1 ∈ (List.range n).filter (fun j => decide (K < colStored A j)) ∧
            t.1 ∈ droppedRows A t.2.1 K))) := by
  simp only [calculate_sparsity_pattern]
  rw [if_pos]
  intro j hj
  rw [nzEntries_eq_colEntries hnz]
  exact of_decide_eq_true (List.mem_filter.mp hj).2

/-- C4 (confirmed).  On a duplicate-free input without stored zeros whose
coordinates fit the declared shape, `calculate_sparsity_pattern` caps every
column at `K` stored entries, keeps in each over-budget column exactly `K`
entries all of whose magnitudes dominate every removed entry, leaves
within-budget columns untouched, strictly decreases the structural nonzero
count whenever some column is over budget (removals are structural, and the
output again has no stored zeros by construction), and keeps the support
inside the input's support. -/
theorem C4_top_k_per_column (A : SpMat) (n K : ℕ) (A' : SpMat)
    (hnz : ∀ t ∈ A, t.2.2 ≠ 0) (hnd : (coordsOf A).Nodup)
    (hbound : ∀ t ∈ A, t.1 < n ∧ t.2.1 < n)
    (h : calculate_sparsity_pattern A n K = some A') :
    (∀ j, colStored A' j ≤ K) ∧
    (∀ j, K < colStored A j → colStored A' j = K ∧
      ∀ s ∈ colEntries A' j, ∀ t ∈ colEntries A j, t ∉ colEntries A' j →
        |t.2.2| ≤ |s.2.2|) ∧
    (∀ j, colStored A j ≤ K → colEntries A' j = colEntries A j) ∧
    ((∃ j, K < colStored A j) → A'.length < A.length) ∧
    (∀ i j, hasCoord A' i j → hasCoord A i j) := by
  rw [calculate_sparsity_pattern_some n K hnz] at h
  injection h with h
  set P : ℕ × ℕ × ℚ → Bool := fun t =>
    decide (t.2.2 ≠ 0 ∧
      ¬(t.2.1 ∈ (List.range n).filter (fun j => decide (K < colStored A j)) ∧
        t.1 ∈ droppedRows A t.2.1 K)) with hP
  have hA' : A' = A.filter P := h.symm
  have hii : ∀ c : ℕ,
      (c ∈ (List.range n).filter fun j => decide (K < colStored A j)) ↔
        c < n ∧ K < colStored A c := by
    intro c
    rw [List.mem_filter, List.mem_range, decide_eq_true_eq]
  have hcol : ∀ j, colEntries A' j = (colEntries A j).filter P := by
    intro j
    rw [hA']
    unfold colEntries
    rw [List.filter_filter, List.filter_filter]
    congr 1
    funext t
    rw [Bool.and_comm]
  -- over-budget columns
  have hoverMain : ∀ j, K < colStored A j →
      (colStored A' j = K ∧
        ∀ s, s ∈ colEntries A' j → s ∈ (colSortedDesc A j).take K) ∧
      (∀ t ∈ colEntries A j, t ∉ colEntries A' j →
        t ∈ (colSortedDesc A j).drop K) := by
    intro j hover
    have hjn : j < n := by
      have hpos : 0 < (colEntries A j).length := by
        unfold colStored at hover
        omega
      rcases List.exists_mem_of_length_pos hpos with ⟨t, ht⟩
      rcases mem_colEntries.mp ht with ⟨htA, ht2⟩
      exact ht2 ▸ (hbound t htA).2
    have hPt : ∀ t ∈ colEntries A j,
        (P t = true ↔ t ∉ (colSortedDesc A j).drop K) := by
      intro t ht
      rcases mem_colEntries.mp ht with ⟨htA, ht2⟩
      rw [hP, decide_eq_true_eq]
      constructor
      · rintro ⟨-, hno⟩ hdrop
        exact hno ⟨ht2 ▸ (hii j).mpr ⟨hjn, hover⟩,
          ht2 ▸ (dropped_iff hnz hnd ht).mpr hdrop⟩
      · intro hnotdrop
        refine ⟨hnz t htA, ?_⟩
        rintro ⟨-, hdropped⟩
        rw [ht2] at hdropped
        exact hnotdrop ((dropped_iff hnz hnd ht).mp hdropped)
    have hperm := colSortedDesc_perm hnz j
    have hsnd : (colSortedDesc A j).Nodup :=
      hperm.nodup_iff.mpr (col_nodup hnd j)
    have hsplit := List.take_append_drop K (colSortedDesc A j)
    have hsnd2 : ((colSortedDesc A j).take K ++
        (colSortedDesc A j).drop K).Nodup := by
      rw [hsplit]; exact hsnd
    have hdisj := (List.nodup_append.mp hsnd2).2.2
    have htake : ((colSortedDesc A j).take K).filter P =
        (colSortedDesc A j).take K := by
      rw [List.filter_eq_self]
      intro t ht
      have htc : t ∈ colEntries A j :=
        hperm.subset (List.take_subset _ _ ht)
      rw [hPt t htc]
      exact fun hd => hdisj ht hd
    have hdropnil : ((colSortedDesc A j).drop K).filter P = [] := by
      rw [List.filter_eq_nil_iff]
      intro t ht
      have htc : t ∈ colEntries A j :=
        hperm.subset (List.drop_subset _ _ ht)
      rw [hPt t htc]
      exact fun hno => hno ht
    have hfs : (colSortedDesc A j).filter P = (colSortedDesc A j).take K := by
      conv_lhs => rw [← hsplit]
      rw [List.filter_append, htake, hdropnil, List.append_nil]
    have hfp : ((colEntries A j).filter P).Perm
        ((colSortedDesc A j).take K) := by
      have h1 := (hperm.filter P).symm
      rw [hfs] at h1
      exact h1
    constructor
    · constructor
      · have hlen : colStored A' j = ((colSortedDesc A j).take K).length := by
          unfold colStored
          rw [hcol j]
          exact hfp.length_eq
        rw [hlen, List.length_take, hperm.length_eq]
        exact Nat.min_eq_left (Nat.le_of_lt hover)
      · intro s hs
        rw [hcol j] at hs
        rcases List.mem_filter.mp hs with ⟨hsc, hsP⟩
        have hss : s ∈ colSortedDesc A j := hperm.symm.subset hsc
        have : s ∈ (colSortedDesc A j).take K ++ (colSortedDesc A j).drop K := by
          rw [hsplit]; exact hss
        rcases List.mem_append.mp this with h | h
        · exact h
        · exact absurd h ((hPt s hsc).mp hsP)
    · intro t ht hnot
      have hnP : ¬P t = true := by
        intro hPt'
        exact hnot (by rw [hcol j]; exact List.mem_filter.mpr ⟨ht, hPt'⟩)
      by_contra hnd'
      exact hnP ((hPt t ht).mpr hnd')
  refine ⟨?_, ?_, ?_, ?_, ?_⟩
  · intro j
    by_cases hover : K < colStored A j
    · exact le_of_eq ((hoverMain j hover).1.1)
    · have : colStored A' j ≤ colStored A j := by
        unfold colStored
        rw [hcol j]
        exact List.length_filter_le _ _
      omega
  · intro j hover
    refine ⟨(hoverMain j hover).1.1, ?_⟩
    intro s hs t ht hnot
    have hstake := (hoverMain j hover).1.2 s hs
    have htdrop := (hoverMain j hover).2 t ht hnot
    have hpair := colSortedDesc_pairwise A j
    have hpair2 : ((colSortedDesc A j).take K ++
        (colSortedDesc A j).drop K).Pairwise fun s t => |t.2.2| ≤ |s.2.2| := by
      rw [List.take_append_drop]; exact hpair
    exact (List.pairwise_append.mp hpair2).2.2 s hstake t htdrop
  · intro j hunder
    rw [hcol j, List.filter_eq_self]
    intro t ht
    rcases mem_colEntries.mp ht with ⟨htA, ht2⟩
    rw [hP]
    apply decide_eq_true
    refine ⟨hnz t htA, ?_⟩
    rintro ⟨hmem, -⟩
    rw [ht2] at hmem
    exact absurd ((hii j).mp hmem).2 (not_lt.mpr hunder)
  · rintro ⟨j, hover⟩
    have hlendrop : 0 < ((colSortedDesc A j).drop K).length := by
      rw [List.length_drop, (colSortedDesc_perm hnz j).length_eq]
      unfold colStored at hover
      omega
    rcases List.exists_mem_of_length_pos hlendrop with ⟨d, hd⟩
    have hdc : d ∈ colEntries A j :=
      (colSortedDesc_perm hnz j).subset (List.drop_subset _ _ hd)
    have hdA : d ∈ A := (mem_colEntries.mp hdc).1
    have hjn : j < n := by
      have := (hbound d hdA).2
      rw [(mem_colEntries.mp hdc).2] at this
      exact this
    have hnP : ¬P d = true := by
      rw [hP, decide_eq_true_eq]
      rintro ⟨-, hno⟩
      rcases mem_colEntries.mp hdc with ⟨-, hd2⟩
      exact hno ⟨hd2 ▸ (hii j).mpr ⟨hjn, hover⟩,
        hd2 ▸ (dropped_iff hnz hnd hdc).mpr hd⟩
    rw [hA']
    exact length_filter_lt P A d hdA hnP
  · intro i j hc
    rw [hasCoord_iff] at hc ⊢
    rcases hc with ⟨t, ht, h1, h2⟩
    rw [hA'] at ht
    exact ⟨t, (List.mem_filter.mp ht).1, h1, h2⟩

/-- C4 (witness).  On the concrete 2-column matrix `A4c` with budget 1,
the hypotheses hold, the cap output keeps the larger entry of the
over-budget column 0, and its column 0 is within budget. -/
theorem C4_top_k_per_column_witness :
    (∀ t ∈ A4c, t.2.2 ≠ 0) ∧
    colStored [(1, 0, (2 : ℚ)), (0, 1, 3)] 0 ≤ 1 := by
  refine ⟨of_decide_eq_true (by with_unfolding_all rfl), ?_⟩
  exact (C4_top_k_per_column A4c 2 1 [(1, 0, (2 : ℚ)), (0, 1, 3)]
    (of_decide_eq_true (by with_unfolding_all rfl))
    (of_decide_eq_true (by with_unfolding_all rfl))
    (of_decide_eq_true (by with_unfolding_all rfl))
    (by with_unfolding_all rfl)).1 0

end MEMRF
